import Mathlib

/-!
Shallow embedding of `src/core/symbolic_planner.py` (OBLISK symbolic planner)
and proofs about it.

Modelling conventions:
* a Python `Set[str]` world state is a `Finset String`;
* a CPython `dict` (which preserves insertion order, and keeps the original
  position of a key on overwrite) is an association list together with the
  `dictInsert` operation below;
* `cost: float` is modelled as a rational number — the planner never performs
  arithmetic on costs, it only stores them;
* the fresh uuid made by `create_plan` is modelled by an explicit `plan_id`
  argument;
* `effect.startswith("NOT_")` / `effect[4:]` are modelled on the string's
  character list (`starts_with_not` / `List.drop 4`).
-/

namespace Oblisk

/-- Status of a plan (`PlanStatus` enum). -/
inductive PlanStatus where
  | pending
  | in_progress
  | completed
  | failed
deriving DecidableEq

/-- The `Action` dataclass: name, parameters, preconditions, effects, cost. -/
structure Action where
  name : String
  parameters : List (String × String)
  preconditions : List String
  effects : List String
  cost : Rat
deriving DecidableEq

/-- The `Goal` dataclass: description, conditions, priority. -/
structure Goal where
  description : String
  conditions : List String
  priority : Int
deriving DecidableEq

/-- A world state: a Python `Set[str]` of facts. -/
abbrev WorldState := Finset String

/-- The plan record built by `create_plan` (a Python dict with fixed keys). -/
structure Plan where
  plan_id : String
  goal : Goal
  initial_state : WorldState
  actions : List Action
  status : PlanStatus
  current_step : Nat
deriving DecidableEq

/-- Key-membership test of the insertion-ordered dict model. -/
def dictHasKey {α : Type} (k : String) : List (String × α) → Bool
  | [] => false
  | e :: rest => decide (e.1 = k) || dictHasKey k rest

/-- Lookup in the insertion-ordered dict model. -/
def dictLookup {α : Type} (k : String) : List (String × α) → Option α
  | [] => none
  | e :: rest => if e.1 = k then some e.2 else dictLookup k rest

/-- Insertion in the insertion-ordered dict model: overwriting an existing key
keeps its position (CPython dict behaviour); a new key is appended. -/
def dictInsert {α : Type} (k : String) (v : α) (d : List (String × α)) :
    List (String × α) :=
  if dictHasKey k d then d.map (fun e => if e.1 = k then (k, v) else e)
  else d ++ [(k, v)]

/-- `dict.values()` in insertion order. -/
def dictValues {α : Type} (d : List (String × α)) : List α := d.map Prod.snd

/-- `dict.keys()` in insertion order. -/
def dictKeys {α : Type} (d : List (String × α)) : List String := d.map Prod.fst

/-- The `SymbolicPlanner` object state: the `actions` registry and the
`plans` store. -/
structure SymbolicPlanner where
  actions : List (String × Action)
  plans : List (String × Plan)
deriving DecidableEq

/-- A freshly constructed planner: both dicts empty. -/
def SymbolicPlanner.empty : SymbolicPlanner := SymbolicPlanner.mk [] []

/-- `register_action`: stores the action under `action_id` and returns `True`.
The source performs no validation of the action definition. -/
def register_action (p : SymbolicPlanner) (action_id : String) (action : Action) :
    Bool × SymbolicPlanner :=
  (true, SymbolicPlanner.mk (dictInsert action_id action p.actions) p.plans)

/-- The `constraints` dict.  The source reads only
`constraints.get("max_depth", 10)`; a `selection_policy` entry may be present
but is never read. -/
structure Constraints where
  max_depth : Nat
  selection_policy : Option String
deriving DecidableEq

/-- The constraints used when the caller passes none: `max_depth` defaults
to 10. -/
def defaultConstraints : Constraints := Constraints.mk 10 none

/-- `_check_goal`: `all(condition in state for condition in goal.conditions)`. -/
def check_goal (goal : Goal) (state : WorldState) : Bool :=
  goal.conditions.all (fun c => decide (c ∈ state))

/-- `_get_applicable_actions`: the registered actions, in registry order, whose
preconditions all hold in `state`. -/
def get_applicable_actions (acts : List (String × Action)) (state : WorldState) :
    List Action :=
  (dictValues acts).filter (fun a => a.preconditions.all (fun pc => decide (pc ∈ state)))

/-- `effect.startswith("NOT_")`, tested on the character list. -/
def starts_with_not : List Char → Bool
  | c1 :: c2 :: c3 :: c4 :: _ =>
      decide (c1 = 'N') && decide (c2 = 'O') && decide (c3 = 'T') && decide (c4 = '_')
  | _ => false

/-- One step of `_apply_action`'s effect loop: a `NOT_`-prefixed effect discards
`effect[4:]` from the state, any other effect is added. -/
def apply_effect (s : WorldState) (e : String) : WorldState :=
  if starts_with_not e.data then s.erase (String.mk (e.data.drop 4)) else insert e s

/-- `_apply_action`: fold the effect list, in order, over the state. -/
def apply_action (action : Action) (state : WorldState) : WorldState :=
  action.effects.foldl apply_effect state

/-- The `for _ in range(max_depth)` loop of `_forward_search`; the post-loop
goal check appears in the fuel-0 case and the `break` (no applicable action)
case. -/
def forward_search_loop (acts : List (String × Action)) (goal : Goal) :
    Nat → WorldState → List Action → Option (List Action)
  | 0, state, plan => if check_goal goal state then some plan else none
  | fuel + 1, state, plan =>
    if check_goal goal state then some plan
    else
      match get_applicable_actions acts state with
      | [] => if check_goal goal state then some plan else none
      | a :: _ => forward_search_loop acts goal fuel (apply_action a state) (plan ++ [a])

/-- `_forward_search`: run the greedy loop for `max_depth` iterations starting
from the empty partial plan. -/
def forward_search (acts : List (String × Action)) (goal : Goal) (state : WorldState)
    (constraints : Constraints) : Option (List Action) :=
  forward_search_loop acts goal constraints.max_depth state []

/-- `create_plan`: on search failure returns `None` and stores nothing; on
success stores a `PENDING` plan with `current_step = 0` under the fresh id and
returns the id. -/
def create_plan (p : SymbolicPlanner) (plan_id : String) (goal : Goal)
    (initial_state : WorldState) (constraints : Constraints) :
    Option String × SymbolicPlanner :=
  match forward_search p.actions goal initial_state constraints with
  | none => (none, p)
  | some seq =>
    (some plan_id,
     SymbolicPlanner.mk p.actions
       (dictInsert plan_id (Plan.mk plan_id goal initial_state seq PlanStatus.pending 0)
         p.plans))

/-- `execute_plan`: `False` for an unknown id; otherwise unconditionally sets
the stored plan's status to `IN_PROGRESS` and returns `True`. -/
def execute_plan (p : SymbolicPlanner) (plan_id : String) : Bool × SymbolicPlanner :=
  match dictLookup plan_id p.plans with
  | none => (false, p)
  | some pl =>
    (true,
     SymbolicPlanner.mk p.actions
       (dictInsert plan_id
         (Plan.mk pl.plan_id pl.goal pl.initial_state pl.actions
           PlanStatus.in_progress pl.current_step)
         p.plans))

/-- `get_plan`. -/
def get_plan (p : SymbolicPlanner) (plan_id : String) : Option Plan :=
  dictLookup plan_id p.plans

/-- `get_plan_status`. -/
def get_plan_status (p : SymbolicPlanner) (plan_id : String) : Option PlanStatus :=
  (dictLookup plan_id p.plans).map Plan.status

/-- Sequential application of a plan's actions to a state, in order. -/
def apply_sequence (seq : List Action) (state : WorldState) : WorldState :=
  seq.foldl (fun s a => apply_action a s) state

/-- The total cost of an action sequence (the source stores no cost on a plan;
this is the sum of the actions' `cost` fields). -/
def total_cost (seq : List Action) : Rat :=
  (seq.map Action.cost).sum

/-! ### Concrete instances used in counterexamples and witnesses -/

/-- The blocks-world pickup action of the spec's concrete scenario A. -/
def pickup_action : Action :=
  Action.mk "pickup" [] ["hand_empty", "block_on_table"]
    ["holding_block", "NOT_hand_empty"] 1

/-- A planner with only `pickup_action` registered. -/
def pickup_planner : SymbolicPlanner :=
  (register_action SymbolicPlanner.empty "pickup" pickup_action).2

def pickup_goal : Goal := Goal.mk "hold the block" ["holding_block"] 1

def pickup_init : WorldState := {"hand_empty", "block_on_table"}

/-- The plan record `create_plan` stores for scenario A under id `p1`. -/
def pickup_plan : Plan :=
  Plan.mk "p1" pickup_goal pickup_init [pickup_action] PlanStatus.pending 0

/-- An action whose effect list both adds and removes the fact `x` and whose
cost is negative. -/
def conflicting_action : Action := Action.mk "bad" [] [] ["x", "NOT_x"] (-1)

/-- An action of cost 5 that reaches the fact `g` in one step. -/
def expensive_action : Action := Action.mk "expensive" [] [] ["g"] 5

/-- An action of cost 1 that reaches the fact `g` in one step. -/
def cheap_action : Action := Action.mk "cheap" [] [] ["g"] 1

/-- `expensive_action` registered first, then `cheap_action`. -/
def two_action_planner : SymbolicPlanner :=
  (register_action (register_action SymbolicPlanner.empty "expensive" expensive_action).2
    "cheap" cheap_action).2

/-- Constraints carrying a `selection_policy` entry requesting LOWEST_COST. -/
def lowest_cost_constraints : Constraints := Constraints.mk 10 (some "LOWEST_COST")

def reach_g_goal : Goal := Goal.mk "reach g" ["g"] 1

/-- An always-applicable action that only adds `y`; fuel runs out before the
goal `x` is ever reached. -/
def progress_action : Action := Action.mk "step" [] [] ["y"] 1

/-- A planner with only `progress_action` registered. -/
def exhaust_planner : SymbolicPlanner :=
  (register_action SymbolicPlanner.empty "step" progress_action).2

def unreachable_goal : Goal := Goal.mk "reach x" ["x"] 1

/-- An action whose (empty) effect list reproduces the state it is applied to:
a cycle in the induced transition graph. -/
def cycle_action : Action := Action.mk "cycle" [] [] [] 1

/-- `cheap_action` registered first, then the cycle-producing action. -/
def cyclic_planner : SymbolicPlanner :=
  (register_action (register_action SymbolicPlanner.empty "reach" cheap_action).2
    "cycle" cycle_action).2

/-- A goal whose only condition carries the `NOT_` prefix. -/
def neg_goal : Goal := Goal.mk "negated condition" ["NOT_x"] 1

/-- A plan record already in the terminal status `COMPLETED`. -/
def done_plan : Plan := Plan.mk "p1" (Goal.mk "g" [] 1) ∅ [] PlanStatus.completed 0

/-- A planner storing `done_plan` under id `p1`. -/
def planner_with_done : SymbolicPlanner := SymbolicPlanner.mk [] [("p1", done_plan)]

/-- A `PENDING` plan record for id `p2`. -/
def pending_plan : Plan := Plan.mk "p2" reach_g_goal ∅ [cheap_action] PlanStatus.pending 0

/-- A planner storing a completed plan under `p1` and a pending one under `p2`. -/
def two_plan_planner : SymbolicPlanner :=
  SymbolicPlanner.mk [] [("p1", done_plan), ("p2", pending_plan)]

/-- A goal already satisfied by `{"a"}`. -/
def satisfied_goal : Goal := Goal.mk "already satisfied" ["a"] 1

/-! ### Properties of the dict model -/

theorem dictLookup_of_hasKey_false {α : Type} (k : String) :
    ∀ d : List (String × α), dictHasKey k d = false → dictLookup k d = none := by
  intro d
  induction d with
  | nil => intro _; rfl
  | cons e rest ih =>
    intro h
    have h' : ¬ e.1 = k ∧ dictHasKey k rest = false := by
      have := h
      simp only [dictHasKey, Bool.or_eq_false_iff, decide_eq_false_iff_not] at this
      exact this
    simp [dictLookup, h'.1, ih h'.2]

theorem dictLookup_dictInsert_self {α : Type} (k : String) (v : α)
    (d : List (String × α)) : dictLookup k (dictInsert k v d) = some v := by
  by_cases h : dictHasKey k d = true
  · rw [dictInsert, if_pos h]
    induction d with
    | nil => simp [dictHasKey] at h
    | cons e rest ih =>
      by_cases he : e.1 = k
      · simp [dictLookup, he]
      · have hrest : dictHasKey k rest = true := by
          have := h
          simp only [dictHasKey, Bool.or_eq_true, decide_eq_true_eq] at this
          rcases this with h1 | h2
          · exact absurd h1 he
          · exact h2
        simp only [List.map_cons, dictLookup, if_neg he]
        exact ih hrest
  · have hf : dictHasKey k d = false := by
      cases hx : dictHasKey k d
      · rfl
      · exact absurd hx h
    rw [dictInsert, if_neg (by rw [hf]; exact Bool.false_ne_true)]
    induction d with
    | nil => simp [dictLookup]
    | cons e rest ih =>
      have h' : ¬ e.1 = k ∧ dictHasKey k rest = false := by
        have := hf
        simp only [dictHasKey, Bool.or_eq_false_iff, decide_eq_false_iff_not] at this
        exact this
      simp only [List.cons_append, dictLookup, if_neg h'.1]
      exact ih (by rw [h'.2]; exact Bool.false_ne_true) h'.2

theorem dictLookup_dictInsert_ne {α : Type} (k k' : String) (v : α)
    (hne : k' ≠ k) (d : List (String × α)) :
    dictLookup k' (dictInsert k v d) = dictLookup k' d := by
  rw [dictInsert]
  by_cases h : dictHasKey k d = true
  · rw [if_pos h]
    clear h
    induction d with
    | nil => rfl
    | cons e rest ih =>
      by_cases he : e.1 = k
      · have hne2 : ¬ (k, v).1 = k' := fun hc => hne (hc.symm)
        have hne3 : ¬ e.1 = k' := by rw [he]; exact fun hc => hne hc.symm
        simp only [List.map_cons, dictLookup, if_pos he, if_neg hne2, if_neg hne3]
        exact ih
      · simp only [List.map_cons, dictLookup, if_neg he]
        by_cases he' : e.1 = k'
        · simp [he']
        · rw [if_neg he', if_neg he']
          exact ih
  · rw [if_neg h]
    clear h
    induction d with
    | nil =>
      have hkk : ¬ (k, v).1 = k' := fun hc => hne hc.symm
      simp [dictLookup, hkk]
    | cons e rest ih =>
      by_cases he : e.1 = k'
      · simp [dictLookup, he]
      · simp only [List.cons_append, dictLookup, if_neg he]
        exact ih

theorem dictKeys_dictInsert_of_hasKey {α : Type} (k : String) (v : α)
    (d : List (String × α)) (h : dictHasKey k d = true) :
    dictKeys (dictInsert k v d) = dictKeys d := by
  rw [dictInsert, if_pos h, dictKeys, List.map_map, dictKeys]
  apply List.map_congr_left
  intro e _
  by_cases he : e.1 = k
  · simp [Function.comp, he]
  · simp [Function.comp, he]

theorem dictKeys_dictInsert_of_not_hasKey {α : Type} (k : String) (v : α)
    (d : List (String × α)) (h : dictHasKey k d = false) :
    dictKeys (dictInsert k v d) = dictKeys d ++ [k] := by
  rw [dictInsert, if_neg (by rw [h]; exact Bool.false_ne_true), dictKeys,
    List.map_append, dictKeys]
  rfl

/-! ### Properties of goal checking and the search loop -/

theorem check_goal_iff (goal : Goal) (state : WorldState) :
    check_goal goal state = true ↔ ∀ c ∈ goal.conditions, c ∈ state := by
  simp [check_goal, List.all_eq_true]

/-- Whenever the loop returns a plan, the actions appended beyond the incoming
partial plan lead from the incoming state to a goal-satisfying state. -/
theorem forward_search_loop_sound (acts : List (String × Action)) (goal : Goal) :
    ∀ (fuel : Nat) (state : WorldState) (acc res : List Action),
      forward_search_loop acts goal fuel state acc = some res →
      ∃ rest, res = acc ++ rest ∧ check_goal goal (apply_sequence rest state) = true := by
  intro fuel
  induction fuel with
  | zero =>
    intro state acc res h
    by_cases hg : check_goal goal state = true
    · rw [forward_search_loop, if_pos hg] at h
      exact ⟨[], by simpa using (Option.some_injective _ h).symm, by simpa [apply_sequence] using hg⟩
    · rw [forward_search_loop, if_neg hg] at h
      exact absurd h (by simp)
  | succ n ih =>
    intro state acc res h
    by_cases hg : check_goal goal state = true
    · rw [forward_search_loop, if_pos hg] at h
      exact ⟨[], by simpa using (Option.some_injective _ h).symm, by simpa [apply_sequence] using hg⟩
    · rw [forward_search_loop, if_neg hg] at h
      cases happ : get_applicable_actions acts state with
      | nil =>
        rw [happ, if_neg hg] at h
        exact absurd h (by simp)
      | cons a tl =>
        rw [happ] at h
        obtain ⟨tail, hres, hck⟩ := ih (apply_action a state) (acc ++ [a]) res h
        refine ⟨a :: tail, ?_, ?_⟩
        · rw [hres, List.append_assoc]
          rfl
        · exact hck

/-- Whenever the loop returns a plan, at most `fuel` actions were appended. -/
theorem forward_search_loop_length (acts : List (String × Action)) (goal : Goal) :
    ∀ (fuel : Nat) (state : WorldState) (acc res : List Action),
      forward_search_loop acts goal fuel state acc = some res →
      res.length ≤ acc.length + fuel := by
  intro fuel
  induction fuel with
  | zero =>
    intro state acc res h
    by_cases hg : check_goal goal state = true
    · rw [forward_search_loop, if_pos hg] at h
      rw [← Option.some_injective _ h]
      simp
    · rw [forward_search_loop, if_neg hg] at h
      exact absurd h (by simp)
  | succ n ih =>
    intro state acc res h
    by_cases hg : check_goal goal state = true
    · rw [forward_search_loop, if_pos hg] at h
      rw [← Option.some_injective _ h]
      simp
    · rw [forward_search_loop, if_neg hg] at h
      cases happ : get_applicable_actions acts state with
      | nil =>
        rw [happ, if_neg hg] at h
        exact absurd h (by simp)
      | cons a tl =>
        rw [happ] at h
        have := ih (apply_action a state) (acc ++ [a]) res h
        simp only [List.length_append, List.length_cons, List.length_nil] at this
        omega

/-- A state satisfying the goal makes the loop return its partial plan at once,
for every amount of fuel. -/
theorem forward_search_loop_of_goal (acts : List (String × Action)) (goal : Goal)
    (fuel : Nat) (state : WorldState) (acc : List Action)
    (hg : check_goal goal state = true) :
    forward_search_loop acts goal fuel state acc = some acc := by
  cases fuel with
  | zero => rw [forward_search_loop, if_pos hg]
  | succ n => rw [forward_search_loop, if_pos hg]

/-! ### Properties of `NOT_`-prefixed effects -/

theorem data_not_append (f : String) :
    ("NOT_" ++ f).data = 'N' :: 'O' :: 'T' :: '_' :: f.data := by
  simp [String.data_append]

theorem not_append_inj {a b : String} (h : "NOT_" ++ a = "NOT_" ++ b) : a = b := by
  apply String.ext
  have h2 := congrArg String.data h
  simpa [String.data_append] using h2

theorem starts_with_not_iff (l : List Char) :
    starts_with_not l = true ↔ ∃ t, l = 'N' :: 'O' :: 'T' :: '_' :: t := by
  rcases l with _ | ⟨c1, _ | ⟨c2, _ | ⟨c3, _ | ⟨c4, t⟩⟩⟩⟩ <;>
    simp [starts_with_not, and_assoc]

/-- A string passes the source's prefix test iff it is `"NOT_" ++ f` for
some `f`. -/
theorem starts_with_not_string_iff (e : String) :
    starts_with_not e.data = true ↔ ∃ f, e = "NOT_" ++ f := by
  rw [starts_with_not_iff]
  constructor
  · rintro ⟨t, ht⟩
    refine ⟨String.mk t, ?_⟩
    apply String.ext
    rw [ht, data_not_append]
  · rintro ⟨f, rfl⟩
    exact ⟨f.data, data_not_append f⟩

/-- A `NOT_`-prefixed effect removes the fact after the prefix. -/
theorem apply_effect_neg (s : WorldState) (f : String) :
    apply_effect s ("NOT_" ++ f) = s.erase f := by
  rw [apply_effect, if_pos]
  · have h : String.mk ((("NOT_" ++ f).data).drop 4) = f := by
      apply String.ext
      rw [data_not_append]
      simp
    rw [h]
  · rw [data_not_append]
    rfl

/-- Any other effect adds the fact itself. -/
theorem apply_effect_pos (s : WorldState) (e : String)
    (h : ¬ ∃ f, e = "NOT_" ++ f) :
    apply_effect s e = insert e s := by
  rw [apply_effect, if_neg]
  intro hc
  exact h ((starts_with_not_string_iff e).mp hc)

/-- Membership after folding an effect list, for lists in which no fact is both
added and removed: a fact is present afterwards iff it was present and never
removed, or occurs as a positive effect. -/
theorem foldl_apply_effect_mem (g : String) :
    ∀ (l : List String) (s : WorldState),
      (∀ f, (¬ ∃ f2, f = "NOT_" ++ f2) → ("NOT_" ++ f) ∈ l → f ∉ l) →
      (g ∈ l.foldl apply_effect s ↔
        ((g ∈ s ∧ ("NOT_" ++ g) ∉ l) ∨ (g ∈ l ∧ ¬ ∃ f, g = "NOT_" ++ f))) := by
  intro l
  induction l with
  | nil => intro s _; simp
  | cons e rest ih =>
    intro s hnc
    have hnc' : ∀ f, (¬ ∃ f2, f = "NOT_" ++ f2) → ("NOT_" ++ f) ∈ rest → f ∉ rest := by
      intro f hf hmem hin
      exact hnc f hf (List.mem_cons_of_mem _ hmem) (List.mem_cons_of_mem _ hin)
    rw [List.foldl_cons]
    by_cases hne : ∃ f2, e = "NOT_" ++ f2
    · obtain ⟨f2, rfl⟩ := hne
      rw [apply_effect_neg, ih (s.erase f2) hnc']
      constructor
      · rintro (⟨hmem, hnr⟩ | ⟨hmem, hnn⟩)
        · rw [Finset.mem_erase] at hmem
          left
          refine ⟨hmem.2, ?_⟩
          intro hc
          rcases List.mem_cons.mp hc with hc1 | hc2
          · exact hmem.1 (not_append_inj hc1)
          · exact hnr hc2
        · right
          exact ⟨List.mem_cons_of_mem _ hmem, hnn⟩
      · rintro (⟨hmem, hnr⟩ | ⟨hmem, hnn⟩)
        · left
          refine ⟨Finset.mem_erase.mpr ⟨?_, hmem⟩, ?_⟩
          · intro hc
            exact hnr (by rw [hc]; exact List.mem_cons_self _ _)
          · intro hc
            exact hnr (List.mem_cons_of_mem _ hc)
        · rcases List.mem_cons.mp hmem with hc1 | hc2
          · exact absurd ⟨f2, hc1⟩ hnn
          · right
            exact ⟨hc2, hnn⟩
    · rw [apply_effect_pos s e hne, ih (insert e s) hnc']
      have hne_head : ("NOT_" ++ g) ≠ e := fun hc => hne ⟨g, hc.symm⟩
      constructor
      · rintro (⟨hmem, hnr⟩ | ⟨hmem, hnn⟩)
        · rcases Finset.mem_insert.mp hmem with hc1 | hc2
          · right
            refine ⟨by rw [hc1]; exact List.mem_cons_self _ _, ?_⟩
            rw [hc1]
            exact hne
          · left
            refine ⟨hc2, ?_⟩
            intro hc
            rcases List.mem_cons.mp hc with hc1 | hc3
            · exact hne_head hc1
            · exact hnr hc3
        · right
          exact ⟨List.mem_cons_of_mem _ hmem, hnn⟩
      · rintro (⟨hmem, hnr⟩ | ⟨hmem, hnn⟩)
        · left
          refine ⟨Finset.mem_insert_of_mem hmem, ?_⟩
          intro hc
          exact hnr (List.mem_cons_of_mem _ hc)
        · rcases List.mem_cons.mp hmem with hc1 | hc2
          · left
            refine ⟨by rw [hc1]; exact Finset.mem_insert_self _ _, ?_⟩
            intro hc
            exact (hnc g hnn (List.mem_cons_of_mem _ hc)) hmem
          · right
            exact ⟨hc2, hnn⟩

/-- Folding an effect list never adds a `NOT_`-prefixed fact. -/
theorem foldl_apply_effect_not_mem (f : String) :
    ∀ (l : List String) (s : WorldState),
      ("NOT_" ++ f) ∈ l.foldl apply_effect s → ("NOT_" ++ f) ∈ s := by
  intro l
  induction l with
  | nil => intro s h; exact h
  | cons e rest ih =>
    intro s h
    rw [List.foldl_cons] at h
    have h2 := ih (apply_effect s e) h
    by_cases hne : ∃ f2, e = "NOT_" ++ f2
    · obtain ⟨f2, rfl⟩ := hne
      rw [apply_effect_neg] at h2
      exact Finset.mem_of_mem_erase h2
    · rw [apply_effect_pos s e hne] at h2
      rcases Finset.mem_insert.mp h2 with hc | hc
      · exact absurd ⟨f, hc.symm⟩ hne
      · exact hc

/-- An action sequence never adds a `NOT_`-prefixed fact. -/
theorem apply_sequence_not_mem (f : String) :
    ∀ (seq : List Action) (s : WorldState),
      ("NOT_" ++ f) ∈ apply_sequence seq s → ("NOT_" ++ f) ∈ s := by
  intro seq
  induction seq with
  | nil => intro s h; exact h
  | cons a rest ih =>
    intro s h
    exact foldl_apply_effect_not_mem f a.effects s (ih (apply_action a s) h)

/-! ### Claim theorems -/

/-- **C1** (confirmed). Soundness of returned plans: whenever `create_plan`
returns a plan, sequentially applying each action of the stored plan's action
sequence, in order, to the initial state (a `NOT_`-prefixed effect removes the
named fact, any other effect adds it) yields a final state containing every
goal condition. -/
theorem create_plan_sound (p : SymbolicPlanner) (plan_id : String) (goal : Goal)
    (initial_state : WorldState) (constraints : Constraints) (pl : Plan)
    (hok : (create_plan p plan_id goal initial_state constraints).1.isSome = true)
    (hpl : get_plan (create_plan p plan_id goal initial_state constraints).2 plan_id
      = some pl) :
    ∀ c ∈ goal.conditions, c ∈ apply_sequence pl.actions initial_state := by
  cases hfs : forward_search p.actions goal initial_state constraints with
  | none => simp [create_plan, hfs] at hok
  | some seq =>
    have hstore :
        get_plan (create_plan p plan_id goal initial_state constraints).2 plan_id
          = some (Plan.mk plan_id goal initial_state seq PlanStatus.pending 0) := by
      simp only [create_plan, hfs, get_plan]
      exact dictLookup_dictInsert_self _ _ _
    have hpl_eq : pl = Plan.mk plan_id goal initial_state seq PlanStatus.pending 0 :=
      Option.some_injective _ (hpl.symm.trans hstore)
    obtain ⟨rest, hres, hck⟩ :=
      forward_search_loop_sound p.actions goal constraints.max_depth initial_state [] seq hfs
    have hrest : rest = seq := by simpa using hres.symm
    intro c hc
    have hfin := (check_goal_iff goal (apply_sequence rest initial_state)).mp hck c hc
    rw [hpl_eq]
    have hact : (Plan.mk plan_id goal initial_state seq PlanStatus.pending 0).actions
        = seq := rfl
    rw [hact, ← hrest]
    exact hfin

/-- Witness for `create_plan_sound`: the spec's concrete scenario A. -/
theorem create_plan_sound_witness :
    (get_plan (create_plan pickup_planner "p1" pickup_goal pickup_init
        defaultConstraints).2 "p1" = some pickup_plan) ∧
    "holding_block" ∈ apply_sequence pickup_plan.actions pickup_init :=
  ⟨by decide,
   create_plan_sound pickup_planner "p1" pickup_goal pickup_init defaultConstraints
     pickup_plan (by decide) (by decide) "holding_block" (by decide)⟩

/-- **C2 counterexample.** `register_action` performs no validation: an action
whose effect list both adds and removes `x` and whose cost is negative is
accepted — the call returns `True` and the registry is mutated to hold it,
instead of failing and leaving the registry unchanged. -/
theorem register_action_accepts_invalid :
    ("x" ∈ conflicting_action.effects ∧ ("NOT_" ++ "x") ∈ conflicting_action.effects ∧
      conflicting_action.cost < 0) ∧
    (register_action SymbolicPlanner.empty "bad" conflicting_action).1 = true ∧
    (register_action SymbolicPlanner.empty "bad" conflicting_action).2.actions
      = [("bad", conflicting_action)] := by
  decide

/-- **C2 amended** (proved). Registration never fails: for every action —
valid or not — `register_action` returns `True` and stores the action under
its identifier; no `InvalidActionDefinition` rejection exists in the code. -/
theorem register_action_always_succeeds (p : SymbolicPlanner) (action_id : String)
    (action : Action) :
    (register_action p action_id action).1 = true ∧
    dictLookup action_id (register_action p action_id action).2.actions = some action :=
  ⟨rfl, dictLookup_dictInsert_self action_id action p.actions⟩

/-- **C6** (confirmed). Already-satisfied goal fast path: whenever every goal
condition already holds in the initial state, `create_plan` succeeds for every
`max_depth` (including 0) and the stored plan has an empty action sequence,
whose total cost is 0. -/
theorem create_plan_satisfied_goal (p : SymbolicPlanner) (plan_id : String)
    (goal : Goal) (initial_state : WorldState) (constraints : Constraints)
    (h : ∀ c ∈ goal.conditions, c ∈ initial_state) :
    (create_plan p plan_id goal initial_state constraints).1 = some plan_id ∧
    ∃ pl, get_plan (create_plan p plan_id goal initial_state constraints).2 plan_id
        = some pl ∧ pl.actions = [] ∧ total_cost pl.actions = 0 := by
  have hg : check_goal goal initial_state = true := (check_goal_iff _ _).mpr h
  have hfs : forward_search p.actions goal initial_state constraints = some [] :=
    forward_search_loop_of_goal p.actions goal constraints.max_depth initial_state [] hg
  constructor
  · simp [create_plan, hfs]
  · refine ⟨Plan.mk plan_id goal initial_state [] PlanStatus.pending 0, ?_, rfl, ?_⟩
    · simp only [create_plan, hfs, get_plan]
      exact dictLookup_dictInsert_self _ _ _
    · simp [total_cost]

/-- Witness for `create_plan_satisfied_goal`, with `max_depth = 0`. -/
theorem create_plan_satisfied_goal_witness :
    (∀ c ∈ satisfied_goal.conditions, c ∈ ({"a"} : WorldState)) ∧
    (create_plan SymbolicPlanner.empty "p0" satisfied_goal {"a"}
        (Constraints.mk 0 none)).1 = some "p0" :=
  ⟨by decide,
   (create_plan_satisfied_goal SymbolicPlanner.empty "p0" satisfied_goal {"a"}
      (Constraints.mk 0 none) (by decide)).1⟩

/-- **C7** (confirmed). Termination under cycles: the search loop runs at most
`max_depth` iterations (it is structurally bounded by that fuel, whatever the
domain — cyclic or not), so every returned plan has at most `max_depth`
actions. -/
theorem forward_search_depth_bound (acts : List (String × Action)) (goal : Goal)
    (state : WorldState) (constraints : Constraints) (seq : List Action)
    (h : forward_search acts goal state constraints = some seq) :
    seq.length ≤ constraints.max_depth := by
  have h2 := forward_search_loop_length acts goal constraints.max_depth state [] seq h
  simpa using h2

/-- Witness for `forward_search_depth_bound` on a domain containing a
cycle-producing action. -/
theorem forward_search_depth_bound_witness :
    (forward_search cyclic_planner.actions reach_g_goal ∅ defaultConstraints
        = some [cheap_action]) ∧
    [cheap_action].length ≤ defaultConstraints.max_depth :=
  ⟨by decide,
   forward_search_depth_bound cyclic_planner.actions reach_g_goal ∅ defaultConstraints
     [cheap_action] (by decide)⟩

/-- **C3 counterexample.** `execute_plan` does not check the stored status:
called on a plan in the terminal status COMPLETED it succeeds and moves the
plan to IN_PROGRESS, instead of failing and leaving the status unchanged. -/
theorem execute_plan_ignores_status_cex :
    get_plan_status planner_with_done "p1" = some PlanStatus.completed ∧
    (execute_plan planner_with_done "p1").1 = true ∧
    get_plan_status (execute_plan planner_with_done "p1").2 "p1"
      = some PlanStatus.in_progress := by
  decide

/-- **C3 amended** (proved). `execute_plan` succeeds exactly when the plan id
exists: for a known id it returns `True` and unconditionally sets the stored
status to IN_PROGRESS, whatever the previous status (terminal ones included);
for an unknown id it returns `False` and leaves the planner unchanged. -/
theorem execute_plan_transitions (p : SymbolicPlanner) (plan_id : String) :
    (∀ pl, dictLookup plan_id p.plans = some pl →
      (execute_plan p plan_id).1 = true ∧
      get_plan_status (execute_plan p plan_id).2 plan_id
        = some PlanStatus.in_progress) ∧
    (dictLookup plan_id p.plans = none →
      (execute_plan p plan_id).1 = false ∧ (execute_plan p plan_id).2 = p) := by
  constructor
  · intro pl hpl
    constructor
    · simp [execute_plan, hpl]
    · simp only [execute_plan, hpl, get_plan_status]
      rw [dictLookup_dictInsert_self]
      rfl
  · intro hnone
    constructor
    · simp [execute_plan, hnone]
    · simp [execute_plan, hnone]

/-- Witness for `execute_plan_transitions` on a stored PENDING plan. -/
theorem execute_plan_transitions_witness :
    get_plan_status (execute_plan two_plan_planner "p2").2 "p2"
      = some PlanStatus.in_progress :=
  ((execute_plan_transitions two_plan_planner "p2").1 pending_plan (by decide)).2

/-- **C10** (confirmed). Frame property of `execute_plan`: for a known id only
that record's status field changes (to IN_PROGRESS) — its other fields, every
other stored plan, and the action registry are untouched; for an unknown id
nothing changes at all. -/
theorem execute_plan_frame (p : SymbolicPlanner) (plan_id : String) :
    (∀ pl, dictLookup plan_id p.plans = some pl →
      (execute_plan p plan_id).2.actions = p.actions ∧
      (∀ other, other ≠ plan_id →
        dictLookup other (execute_plan p plan_id).2.plans
          = dictLookup other p.plans) ∧
      ∃ pl2, dictLookup plan_id (execute_plan p plan_id).2.plans = some pl2 ∧
        pl2.status = PlanStatus.in_progress ∧ pl2.plan_id = pl.plan_id ∧
        pl2.goal = pl.goal ∧ pl2.initial_state = pl.initial_state ∧
        pl2.actions = pl.actions ∧ pl2.current_step = pl.current_step) ∧
    (dictLookup plan_id p.plans = none → (execute_plan p plan_id).2 = p) := by
  constructor
  · intro pl hpl
    refine ⟨?_, ?_, ?_⟩
    · simp [execute_plan, hpl]
    · intro other hother
      simp only [execute_plan, hpl]
      exact dictLookup_dictInsert_ne plan_id other _ hother p.plans
    · refine ⟨Plan.mk pl.plan_id pl.goal pl.initial_state pl.actions
        PlanStatus.in_progress pl.current_step, ?_, rfl, rfl, rfl, rfl, rfl, rfl⟩
      simp only [execute_plan, hpl]
      exact dictLookup_dictInsert_self _ _ _
  · intro hnone
    simp [execute_plan, hnone]

/-- Witness for `execute_plan_frame`: the other stored plan is untouched. -/
theorem execute_plan_frame_witness :
    dictLookup "p2" (execute_plan two_plan_planner "p1").2.plans
      = dictLookup "p2" two_plan_planner.plans :=
  ((execute_plan_frame two_plan_planner "p1").1 done_plan (by decide)).2.1 "p2"
    (by decide)

/-- **C4 counterexample.** With LOWEST_COST requested in the constraints and
two registered actions each satisfying the goal in one step (costs 5 and 1),
the search returns the first-registered cost-5 action, not the cost-1 one. -/
theorem lowest_cost_ignored_cex :
    (check_goal reach_g_goal (apply_action expensive_action ∅) = true ∧
     check_goal reach_g_goal (apply_action cheap_action ∅) = true ∧
     expensive_action.cost = 5 ∧ cheap_action.cost = 1) ∧
    forward_search two_action_planner.actions reach_g_goal ∅ lowest_cost_constraints
      = some [expensive_action] ∧
    total_cost [expensive_action] = 5 := by
  refine ⟨by decide, by decide, ?_⟩
  simp [total_cost, expensive_action]

/-- **C4 amended** (proved). The code implements no LOWEST_COST policy: the
search reads only `max_depth` from the constraints, so the `selection_policy`
entry never affects the result, and in the two-action scenario the returned
plan consists of the first-registered cost-5 action rather than the cost-1
one. -/
theorem selection_policy_ignored :
    (∀ (acts : List (String × Action)) (goal : Goal) (state : WorldState)
        (d : Nat) (sp1 sp2 : Option String),
      forward_search acts goal state (Constraints.mk d sp1)
        = forward_search acts goal state (Constraints.mk d sp2)) ∧
    forward_search two_action_planner.actions reach_g_goal ∅ lowest_cost_constraints
      = some [expensive_action] := by
  constructor
  · intro acts goal state d sp1 sp2
    rfl
  · decide

/-- **C5 counterexample.** Unsuccessful searches are not distinguished by
cause: a search that still had applicable actions when the depth budget ran
out (the spec's Exhausted) and a search with no applicable action at all (the
spec's NoPlanFound) both make the search return the same `None`, and
`create_plan` returns the same `None` for both. -/
theorem failure_results_indistinguishable_cex :
    (get_applicable_actions exhaust_planner.actions ∅ = [progress_action] ∧
     forward_search exhaust_planner.actions unreachable_goal ∅ defaultConstraints
       = none) ∧
    (get_applicable_actions SymbolicPlanner.empty.actions ∅ = [] ∧
     forward_search SymbolicPlanner.empty.actions unreachable_goal ∅ defaultConstraints
       = none) ∧
    (create_plan exhaust_planner "p1" unreachable_goal ∅ defaultConstraints).1
      = none ∧
    (create_plan SymbolicPlanner.empty "p2" unreachable_goal ∅ defaultConstraints).1
      = none := by
  decide

/-- **C5 amended** (proved). Every unsuccessful search produces the single
undifferentiated result `None`: `create_plan` returns `None` and stores
nothing, whatever the cause; no NoPlanFound/Exhausted/Timeout result kinds
(nor any deadline input) exist in the code. -/
theorem create_plan_failure_undifferentiated (p : SymbolicPlanner) (plan_id : String)
    (goal : Goal) (initial_state : WorldState) (constraints : Constraints)
    (h : forward_search p.actions goal initial_state constraints = none) :
    create_plan p plan_id goal initial_state constraints = (none, p) := by
  simp [create_plan, h]

/-- Witness for `create_plan_failure_undifferentiated`. -/
theorem create_plan_failure_undifferentiated_witness :
    create_plan SymbolicPlanner.empty "p3" unreachable_goal ∅ defaultConstraints
      = (none, SymbolicPlanner.empty) :=
  create_plan_failure_undifferentiated SymbolicPlanner.empty "p3" unreachable_goal ∅
    defaultConstraints (by decide)

/-- **C8** (confirmed). Applicable-action enumeration and ordering: the query
returns exactly the registered actions whose whole precondition set holds in
the state, as a subsequence of the registry's insertion order; re-registering
an existing identifier replaces its definition while keeping the key sequence
(hence its position) unchanged, and a new identifier is appended at the end. -/
theorem applicable_actions_spec (p : SymbolicPlanner) (state : WorldState) :
    (∀ a, a ∈ get_applicable_actions p.actions state ↔
      (a ∈ dictValues p.actions ∧ ∀ pc ∈ a.preconditions, pc ∈ state)) ∧
    List.Sublist (get_applicable_actions p.actions state) (dictValues p.actions) ∧
    (∀ action_id action,
      (dictHasKey action_id p.actions = true →
        dictKeys (register_action p action_id action).2.actions
          = dictKeys p.actions) ∧
      (dictHasKey action_id p.actions = false →
        dictKeys (register_action p action_id action).2.actions
          = dictKeys p.actions ++ [action_id]) ∧
      dictLookup action_id (register_action p action_id action).2.actions
        = some action) := by
  refine ⟨?_, ?_, ?_⟩
  · intro a
    rw [get_applicable_actions, List.mem_filter]
    constructor
    · rintro ⟨h1, h2⟩
      refine ⟨h1, ?_⟩
      intro pc hpc
      exact of_decide_eq_true (List.all_eq_true.mp h2 pc hpc)
    · rintro ⟨h1, h2⟩
      refine ⟨h1, ?_⟩
      apply List.all_eq_true.mpr
      intro pc hpc
      exact decide_eq_true (h2 pc hpc)
  · exact List.filter_sublist _
  · intro action_id action
    refine ⟨?_, ?_, ?_⟩
    · intro h
      exact dictKeys_dictInsert_of_hasKey action_id action p.actions h
    · intro h
      exact dictKeys_dictInsert_of_not_hasKey action_id action p.actions h
    · exact dictLookup_dictInsert_self _ _ _

/-- Witness for `applicable_actions_spec`: overwriting the id `expensive`
keeps the key order, and an applicable action satisfies the
characterization. -/
theorem applicable_actions_spec_witness :
    dictKeys (register_action two_action_planner "expensive" cheap_action).2.actions
      = dictKeys two_action_planner.actions ∧
    cheap_action ∈ get_applicable_actions two_action_planner.actions ∅ :=
  ⟨(((applicable_actions_spec two_action_planner ∅).2.2 "expensive" cheap_action).1)
      (by decide),
   ((applicable_actions_spec two_action_planner ∅).1 cheap_action).mpr
      ⟨by decide, by decide⟩⟩

/-- **C9 counterexample.** Effects apply in list order, so the add/remove sets
alone do not determine the result: for the effect list `["x", "NOT_x"]` the
fact `x` is the only positive (non-`NOT_`) effect string, yet it is absent
after applying the action to the empty state — the later removal wins, so the
application does not add exactly the non-`NOT_` effect strings. -/
theorem apply_action_set_semantics_cex :
    List.filter (fun e => ! starts_with_not e.data) conflicting_action.effects
      = ["x"] ∧
    "x" ∉ apply_action conflicting_action ∅ := by
  decide

/-- **C9 amended** (proved). For an action whose effect list does not both add
and remove the same fact, application removes exactly the facts `f` with
`"NOT_" ++ f` among the effects and adds exactly the effect strings that are
not `NOT_`-prefixed; unconditionally, no application ever adds a
`NOT_`-prefixed fact, so a `NOT_`-prefixed goal condition absent from the
initial state can never be satisfied by any plan the search finds. -/
theorem apply_action_spec :
    (∀ (a : Action) (s : WorldState),
      (∀ f, (¬ ∃ f2, f = "NOT_" ++ f2) → ("NOT_" ++ f) ∈ a.effects →
        f ∉ a.effects) →
      ∀ g, g ∈ apply_action a s ↔
        ((g ∈ s ∧ ("NOT_" ++ g) ∉ a.effects) ∨
         (g ∈ a.effects ∧ ¬ ∃ f, g = "NOT_" ++ f))) ∧
    (∀ (a : Action) (s : WorldState) (f : String),
      ("NOT_" ++ f) ∈ apply_action a s → ("NOT_" ++ f) ∈ s) ∧
    (∀ (acts : List (String × Action)) (goal : Goal) (init : WorldState)
        (constraints : Constraints) (f : String),
      ("NOT_" ++ f) ∈ goal.conditions → ("NOT_" ++ f) ∉ init →
      forward_search acts goal init constraints = none) := by
  refine ⟨?_, ?_, ?_⟩
  · intro a s hnc g
    exact foldl_apply_effect_mem g a.effects s hnc
  · intro a s f h
    exact foldl_apply_effect_not_mem f a.effects s h
  · intro acts goal init constraints f hcond hinit
    cases hfs : forward_search acts goal init constraints with
    | none => rfl
    | some seq =>
      obtain ⟨rest, hres, hck⟩ :=
        forward_search_loop_sound acts goal constraints.max_depth init [] seq hfs
      have hmem := (check_goal_iff goal _).mp hck ("NOT_" ++ f) hcond
      exact absurd (apply_sequence_not_mem f rest init hmem) hinit

/-- Witness for `apply_action_spec`: with the goal condition `NOT_x` absent
from the initial state, the search finds no plan. -/
theorem apply_action_spec_witness :
    forward_search exhaust_planner.actions neg_goal ∅ defaultConstraints = none :=
  apply_action_spec.2.2 exhaust_planner.actions neg_goal ∅ defaultConstraints "x"
    (by decide) (by decide)

end Oblisk
